import Mathlib

/-! Shallow embedding of `src/utilities/tree_utils.py`: the `TreeDF` class
(`tree_to_df`, `df_to_tree`, `validate`) and the module-level query helpers
(`get_children`, `get_descendants`, `get_ancestors`, `get_siblings`).
A pandas DataFrame of node records is modelled as a `List Row` in row order.
The `datetime.now()` timestamps are abstracted to a constant `0`, since no
property under study depends on them.  Python string operations
(`str.startswith`, `str.split`, `str.join`) are modelled on the character
lists underlying `String`. -/

/-- One row of the `TreeDF` DataFrame, with the columns established by
`TreeDF._create_empty_df`. -/
structure Row where
  id : Nat
  code : String
  name : String
  parent_id : Nat
  parent_code : String
  level : Nat
  path : String
  order : Nat
  is_leaf : Bool
  is_active : Bool
  created_at : Nat
  updated_at : Nat
deriving DecidableEq, Repr

/-- The nested input value consumed by `tree_to_df`: a dict with keys
`dept`, `name` and `children` (the `id` key present in the sample input is
never read by `tree_to_df`). -/
inductive DeptTree where
  | node (dept : String) (name : String) (children : List DeptTree)

/-- The nested value produced by `df_to_tree.build_node`: a dict with keys
`dept`, `name`, `id` and `children`. -/
inductive OutTree where
  | node (dept : String) (name : String) (id : Nat) (children : List OutTree)

def DeptTree.dept : DeptTree → String
  | .node d _ _ => d

def DeptTree.name : DeptTree → String
  | .node _ nm _ => nm

def DeptTree.children : DeptTree → List DeptTree
  | .node _ _ cs => cs

/-- Python `s.startswith(p)`: `p` is a prefix of the character sequence of `s`. -/
def startswith (s p : String) : Bool := List.isPrefixOf p.data s.data

/-- Python `s.split(sep)` for a single-character separator, on character lists. -/
def splitOnChar (sep : Char) : List Char → List (List Char)
  | [] => [[]]
  | c :: rest =>
    let r := splitOnChar sep rest
    if c = sep then [] :: r
    else
      match r with
      | [] => [[c]]
      | h :: t => (c :: h) :: t

/-- Python `s.split(sep)` on strings (single-character separator). -/
def splitStr (sep : Char) (s : String) : List String :=
  (splitOnChar sep s.data).map String.mk

/-- Python `sep.join(parts)`. -/
def joinWith (sep : String) : List String → String
  | [] => ""
  | [s] => s
  | s :: rest => s ++ sep ++ joinWith sep rest

mutual
/-- `TreeDF.tree_to_df` (src/utilities/tree_utils.py:34-92): appends a row for
the current node (id = current table size + 1, path = `parent_code/code` when
`parent_code` is non-empty, else `code`), then recurses into the children in
order, passing the current node's code as `parent_code` and enumerating the
children from 1.  `children_fold` is the `for i, child in enumerate(...)` loop. -/
def tree_to_df (df : List Row) (tree : DeptTree) (parent_id : Option Nat)
    (parent_code : String) (level : Nat) (order : Nat) : List Row :=
  match tree with
  | .node dept nm children =>
    let current_id := df.length + 1
    let current_code := dept
    let current_path := if parent_code = "" then current_code
      else parent_code ++ "/" ++ current_code
    let new_row : Row :=
      { id := current_id, code := current_code, name := nm,
        parent_id := parent_id.getD 0, parent_code := parent_code,
        level := level, path := current_path, order := order,
        is_leaf := children.isEmpty, is_active := true,
        created_at := 0, updated_at := 0 }
    children_fold (df ++ [new_row]) children current_id current_code (level + 1) 1
def children_fold (df : List Row) (ts : List DeptTree) (pid : Nat)
    (pcode : String) (level : Nat) (order : Nat) : List Row :=
  match ts with
  | [] => df
  | c :: rest =>
    children_fold (tree_to_df df c (some pid) pcode level order) rest pid pcode level (order + 1)
end

/-- `df[df['id'] == i].iloc[0]` as a partial lookup: the first row with the
given id, if any. -/
def findById (df : List Row) (i : Nat) : Option Row :=
  df.find? (fun r => r.id == i)

/-- First check of `TreeDF.validate`: every `parent_id` is 0 or an existing id. -/
def parentsValid (df : List Row) : Bool :=
  df.all (fun r => r.parent_id == 0 || df.any (fun p => p.id == r.parent_id))

/-- Second check of `TreeDF.validate`, for one row: a non-root row's path must
start with `parent.path + '/'`.  The `none` branch is unreachable whenever
`parentsValid` holds (in the Python code the parent lookup only runs after the
parent-existence check has passed). -/
def pathCheck (df : List Row) (r : Row) : Bool :=
  if r.parent_id == 0 then true
  else
    match findById df r.parent_id with
    | some parent => startswith r.path (parent.path ++ "/")
    | none => true

/-- Third check of `TreeDF.validate`, for one row: a non-root row's level must
be exactly `parent.level + 1`. -/
def levelCheck (df : List Row) (r : Row) : Bool :=
  if r.parent_id == 0 then true
  else
    match findById df r.parent_id with
    | some parent => r.level == parent.level + 1
    | none => true

/-- `TreeDF.validate` (src/utilities/tree_utils.py:124-145). -/
def validate (df : List Row) : Bool :=
  parentsValid df && df.all (pathCheck df) && df.all (levelCheck df)

/-- Stable insertion (by the `order` column) used to model
`children.sort_values('order')`. -/
def insertRow (r : Row) : List Row → List Row
  | [] => [r]
  | x :: xs => if x.order ≤ r.order then x :: insertRow r xs else r :: x :: xs

/-- `df.sort_values('order')`: sort the rows by the `order` column, keeping
the original relative order of equal keys. -/
def sort_values (l : List Row) : List Row :=
  l.foldl (fun acc r => insertRow r acc) []

/-- The Python list comprehension `[build_node(c) for c in ids]`, where any
failure aborts the whole construction. -/
def mapOpt (f : Nat → Option OutTree) : List Nat → Option (List OutTree)
  | [] => some []
  | i :: rest =>
    match f i, mapOpt f rest with
    | some t, some ts => some (t :: ts)
    | _, _ => none

/-- `build_node` inside `TreeDF.df_to_tree` (src/utilities/tree_utils.py:110-120).
The Python recursion has no structural bound, so the embedding takes explicit
fuel; `none` models both a failed `.iloc[0]` lookup and non-termination. -/
def build_node (df : List Row) : Nat → Nat → Option OutTree
  | 0, _ => none
  | fuel + 1, node_id =>
    match findById df node_id with
    | none => none
    | some node =>
      match mapOpt (build_node df fuel)
          ((sort_values (df.filter (fun r => r.parent_id == node_id))).map Row.id) with
      | none => none
      | some kids => some (.node node.code node.name node.id kids)

/-- `TreeDF.df_to_tree` (src/utilities/tree_utils.py:94-122): take the first
row with `parent_id == 0` as root and rebuild recursively.  `df.length + 1`
units of fuel are enough for every table on which the Python recursion
terminates, since each recursive chain visits distinct ids. -/
def df_to_tree (df : List Row) : Option OutTree :=
  match df.find? (fun r => r.parent_id == 0) with
  | none => none
  | some root => build_node df (df.length + 1) root.id

/-- `get_children` (src/utilities/tree_utils.py:172-174). -/
def get_children (df : List Row) (node_id : Nat) : List Row :=
  df.filter (fun r => r.parent_id == node_id)

/-- `get_descendants` (src/utilities/tree_utils.py:176-179). -/
def get_descendants (df : List Row) (node_id : Nat) : Option (List Row) :=
  match findById df node_id with
  | none => none
  | some node => some (df.filter (fun r => startswith r.path (node.path ++ "/")))

/-- `get_ancestors` (src/utilities/tree_utils.py:181-186). -/
def get_ancestors (df : List Row) (node_id : Nat) : Option (List Row) :=
  match findById df node_id with
  | none => none
  | some node =>
    let path_parts := splitStr '/' node.path
    let ancestor_paths :=
      (List.range (path_parts.length - 1)).map (fun i => joinWith "/" (path_parts.take (i + 1)))
    some (df.filter (fun r => ancestor_paths.contains r.path))

/-- `get_siblings` (src/utilities/tree_utils.py:188-191). -/
def get_siblings (df : List Row) (node_id : Nat) : Option (List Row) :=
  match findById df node_id with
  | none => none
  | some node => some (df.filter (fun r => r.parent_id == node.parent_id && !(r.id == node_id)))

/-- The sample tree `A→{B→{D,E}, C}` from the module's `__main__` block. -/
def sampleTree : DeptTree :=
  .node "A" "総務"
    [ .node "B" "人事"
        [ .node "D" "採用" [],
          .node "E" "教育" [] ],
      .node "C" "経理" [] ]

mutual
/-- Number of nodes of a nested input tree. -/
def DeptTree.size : DeptTree → Nat
  | .node _ _ cs => 1 + sizeL cs

/-- Number of nodes of a forest. -/
def sizeL : List DeptTree → Nat
  | [] => 0
  | c :: cs => DeptTree.size c + sizeL cs
end

mutual
/-- Pre-order listing of the `(code, name)` labels of a tree. -/
def DeptTree.labels : DeptTree → List (String × String)
  | .node d nm cs => (d, nm) :: labelsL cs

/-- Pre-order listing of the labels of a forest. -/
def labelsL : List DeptTree → List (String × String)
  | [] => []
  | c :: rest => DeptTree.labels c ++ labelsL rest
end

/-- The consecutive ids `[s, s+1, ..., s+n-1]`. -/
def idsFrom : Nat → Nat → List Nat
  | _, 0 => []
  | s, n + 1 => s :: idsFrom (s + 1) n

/-- The row `tree_to_df` appends for a node with code `d` and name `nm`,
when the table already holds `i - 1` rows. -/
def mkRow (i : Nat) (d nm : String) (pid : Nat) (pcode : String)
    (lvl ord : Nat) (leaf : Bool) : Row :=
  { id := i, code := d, name := nm, parent_id := pid, parent_code := pcode,
    level := lvl, path := if pcode = "" then d else pcode ++ "/" ++ d,
    order := ord, is_leaf := leaf, is_active := true,
    created_at := 0, updated_at := 0 }

mutual
/-- The block of rows `tree_to_df` appends for the subtree `t`, when the node's
row receives id `base`: the node's own row followed by the blocks of its
children. -/
def seg : DeptTree → Nat → String → Nat → Nat → Nat → List Row
  | .node d nm cs, pid, pcode, lvl, ord, base =>
    mkRow base d nm pid pcode lvl ord cs.isEmpty :: segs cs base d (lvl + 1) 1 (base + 1)

/-- The concatenated blocks of the trees of a forest, each block starting where
the previous one ended. -/
def segs : List DeptTree → Nat → String → Nat → Nat → Nat → List Row
  | [], _, _, _, _, _ => []
  | c :: rest, pid, pcode, lvl, ord, base =>
    seg c pid pcode lvl ord base ++ segs rest pid pcode lvl (ord + 1) (base + DeptTree.size c)
end

/-- The first row of the block of `t`. -/
def headRow : DeptTree → Nat → String → Nat → Nat → Nat → Row
  | .node d nm cs, pid, pcode, lvl, ord, base => mkRow base d nm pid pcode lvl ord cs.isEmpty

/-- The first rows of the blocks of a forest: exactly the rows whose
`parent_id` is the common parent `pid`. -/
def rootRows : List DeptTree → Nat → String → Nat → Nat → Nat → List Row
  | [], _, _, _, _, _ => []
  | c :: rest, pid, pcode, lvl, ord, base =>
    headRow c pid pcode lvl ord base :: rootRows rest pid pcode lvl (ord + 1) (base + DeptTree.size c)

/-- The ids of the first rows of the blocks of a forest. -/
def childBases : List DeptTree → Nat → List Nat
  | [], _ => []
  | c :: rest, base => base :: childBases rest (base + DeptTree.size c)

mutual
/-- The tree `df_to_tree` is expected to rebuild from the block of `t`
starting at id `base`. -/
def toOut : DeptTree → Nat → OutTree
  | .node d nm cs, base => .node d nm base (toOutL cs (base + 1))

/-- The forest `df_to_tree` is expected to rebuild from the blocks of `ts`. -/
def toOutL : List DeptTree → Nat → List OutTree
  | [], _ => []
  | c :: rest, base => toOut c base :: toOutL rest (base + DeptTree.size c)
end

mutual
/-- Forget the `id` field of a reconstructed tree. -/
def OutTree.strip : OutTree → DeptTree
  | .node d nm _ cs => .node d nm (stripL cs)

/-- Forget the `id` fields of a reconstructed forest. -/
def stripL : List OutTree → List DeptTree
  | [] => []
  | c :: rest => OutTree.strip c :: stripL rest
end

/-- Modelled from the spec: one node record of the path-list builder of §4.2,
which is not part of `src/` (only the nested-tree builder is).  Fields follow
§3 restricted to what §4.2 assigns: id, code, parent id, level and path. -/
structure PRow where
  id : Nat
  code : String
  parent_id : Nat
  level : Nat
  path : String
deriving DecidableEq, Repr

/-- `rows.find?` by code: the code→node map of the path-list builder. -/
def findByCode (rows : List PRow) (c : String) : Option PRow :=
  rows.find? (fun r => r.code == c)

/-- Modelled from the spec (§4.1 PathSegmenter): split a raw string on the
separator and drop empty segments (this also strips leading/trailing
separator runs). -/
def normalize_path (sep : Char) (s : String) : List String :=
  (splitStr sep s).filter (fun t => t ≠ "")

/-- Modelled from the spec (§4.2): a node's parent id is resolved from the
second-to-last segment of its own path (the last already-passed segment) via
the code→id map; a top-level code (empty `prev`) gets parent id 0. -/
def parentIdOf (rows : List PRow) (prev : List String) : Nat :=
  match prev.getLast? with
  | none => 0
  | some pc =>
    match findByCode rows pc with
    | some p => p.id
    | none => 0

/-- Modelled from the spec (§4.2): visit the segments of one normalized path
left to right with their 1-based positions (`prev` holds the segments already
passed).  The first time a code is seen across the whole input a node is
created, with level the segment's position, path the join of the segments up
to it, and id the next id in discovery order; codes already seen are
skipped. -/
def visitPath (sep : String) (rows : List PRow) (prev : List String) : List String → List PRow
  | [] => rows
  | c :: rest =>
    match findByCode rows c with
    | some _ => visitPath sep rows (prev ++ [c]) rest
    | none =>
      visitPath sep
        (rows ++ [{ id := rows.length + 1, code := c, parent_id := parentIdOf rows prev,
                    level := (prev ++ [c]).length, path := joinWith sep (prev ++ [c]) }])
        (prev ++ [c]) rest

/-- Modelled from the spec (§4.2): the path-list builder.  Normalize every
input string, then scan all paths left to right, visiting each path's
segments. -/
def build_from_paths (sep : Char) (raw : List String) : List PRow :=
  raw.foldl (fun rows s => visitPath (String.mk [sep]) rows [] (normalize_path sep s)) []

/-- A two-row table accepted by `validate` although the child's path extends
the parent's path with a segment different from the child's code. -/
def exRoot : Row :=
  { id := 1, code := "A", name := "root", parent_id := 0, parent_code := "",
    level := 1, path := "A", order := 1, is_leaf := false, is_active := true,
    created_at := 0, updated_at := 0 }

def exChild : Row :=
  { id := 2, code := "B", name := "child", parent_id := 1, parent_code := "A",
    level := 2, path := "A/X", order := 1, is_leaf := true, is_active := true,
    created_at := 0, updated_at := 0 }

/-- C1: the claim says every non-root row built by `tree_to_df` has
`path = parent.path + '/' + code`.  On the sample tree `A→{B→{D,E}, C}` the
row of `D` (the third row) gets `path = "B/D"`, built from the parent's code,
while its parent `B` (id 2) has `path = "A/B"`; the claimed equation would
require `"A/B/D"`.  The code computes `path` from `parent_code`, not from the
parent's path, so the claim fails at depth 3. -/
theorem tree_to_df_path_uses_parent_code :
    ((tree_to_df [] sampleTree none "" 1 1).get? 2).map Row.path = some "B/D" ∧
    ((tree_to_df [] sampleTree none "" 1 1).get? 2).map Row.code = some "D" ∧
    ((tree_to_df [] sampleTree none "" 1 1).get? 2).map Row.parent_id = some 2 ∧
    (findById (tree_to_df [] sampleTree none "" 1 1) 2).map Row.path = some "A/B" ∧
    ("B/D" : String) ≠ "A/B" ++ "/" ++ "D" := by
  decide

/-- C2: the claim says `validate` accepts every table built by `tree_to_df`.
On the sample tree (depth 3) the builder's own output is rejected, because the
stored path `"B/D"` of row `D` does not start with its parent's path
`"A/B" + "/"`. -/
theorem validate_rejects_built_sample :
    validate (tree_to_df [] sampleTree none "" 1 1) = false := by
  decide

/-- C4: the claim says `get_descendants` on `A`'s id returns rows including
`B`, `C`, `D` and `E`.  On the table built from the sample tree it returns
exactly the rows of `B` and `C`: the stored paths of `D` and `E` are `"B/D"`
and `"B/E"`, which do not start with `"A/"`. -/
theorem get_descendants_sample_misses_grandchildren :
    (get_descendants (tree_to_df [] sampleTree none "" 1 1) 1).map (List.map Row.code)
      = some ["B", "C"] := by
  decide

/-- C5: the claim says `get_ancestors` on `D`'s id returns the rows of `A`
and `B` in root-to-parent order.  On the table built from the sample tree,
row id 3 is `D` with stored path `"B/D"`, whose only candidate ancestor path
is `"B"`; no row carries that path, so the result is empty. -/
theorem get_ancestors_sample_empty :
    (findById (tree_to_df [] sampleTree none "" 1 1) 3).map Row.code = some "D" ∧
    (get_ancestors (tree_to_df [] sampleTree none "" 1 1) 3).map (List.map Row.code)
      = some [] := by
  decide

/-- C6 counterexample: `validate` accepts the two-row table
`[exRoot, exChild]`, yet the non-root row's path `"A/X"` is not
`parent.path + '/' + code = "A/B"`: the validator only demands a prefix. -/
theorem validate_accepts_non_exact_path :
    validate [exRoot, exChild] = true ∧
    exChild.parent_id ≠ 0 ∧
    findById [exRoot, exChild] exChild.parent_id = some exRoot ∧
    exChild.path ≠ exRoot.path ++ "/" ++ exChild.code := by
  decide


/-- Under the parent-existence check, a non-root row's parent lookup succeeds. -/
theorem findById_isSome_of_parentsValid (df : List Row) (h : parentsValid df = true)
    (r : Row) (hr : r ∈ df) (hpid : r.parent_id ≠ 0) :
    ∃ p, findById df r.parent_id = some p := by
  have hall := List.all_eq_true.mp h r hr
  rcases Bool.or_eq_true _ _ |>.mp hall with h0 | hany
  · exact absurd (by simpa using h0) hpid
  · obtain ⟨p, hp, hpid'⟩ := List.any_eq_true.mp hany
    exact Option.isSome_iff_exists.mp (List.find?_isSome.mpr ⟨p, hp, hpid'⟩)

/-- C6 (amended): every NodeTable accepted by `validate` satisfies, for every
non-root row, that its parent's path followed by the separator is a prefix of
the row's own path (this is the exact guarantee; equality with
`parent.path + '/' + code` is not checked). -/
theorem validate_implies_path_prefix (df : List Row) (h : validate df = true) :
    ∀ r ∈ df, r.parent_id ≠ 0 →
      ∃ p, findById df r.parent_id = some p ∧ startswith r.path (p.path ++ "/") = true := by
  intro r hr hpid
  unfold validate at h
  rw [Bool.and_eq_true, Bool.and_eq_true] at h
  obtain ⟨⟨h1, h2⟩, _⟩ := h
  obtain ⟨p, hp⟩ := findById_isSome_of_parentsValid df h1 r hr hpid
  refine ⟨p, hp, ?_⟩
  have hchk := List.all_eq_true.mp h2 r hr
  unfold pathCheck at hchk
  rw [if_neg (by simpa using hpid), hp] at hchk
  exact hchk

/-- Witness for the amended C6 at the concrete table `[exRoot, exChild]`. -/
theorem validate_implies_path_prefix_witness :
    validate [exRoot, exChild] = true ∧
    ∀ r ∈ [exRoot, exChild], r.parent_id ≠ 0 →
      ∃ p, findById [exRoot, exChild] r.parent_id = some p ∧
        startswith r.path (p.path ++ "/") = true :=
  ⟨by decide, validate_implies_path_prefix [exRoot, exChild] (by decide)⟩

/-- Some row's nonzero `parent_id` is no row's id. -/
def badParent (df : List Row) : Prop :=
  ∃ r ∈ df, r.parent_id ≠ 0 ∧ ∀ p ∈ df, p.id ≠ r.parent_id

/-- Some non-root row's path does not start with its parent's path plus the
separator. -/
def badPath (df : List Row) : Prop :=
  ∃ r ∈ df, r.parent_id ≠ 0 ∧ ∃ p, findById df r.parent_id = some p ∧
    startswith r.path (p.path ++ "/") = false

/-- Some non-root row's level is not its parent's level plus one. -/
def badLevel (df : List Row) : Prop :=
  ∃ r ∈ df, r.parent_id ≠ 0 ∧ ∃ p, findById df r.parent_id = some p ∧
    r.level ≠ p.level + 1

theorem parentsValid_eq_false_iff (df : List Row) :
    parentsValid df = false ↔ badParent df := by
  unfold parentsValid badParent
  rw [← Bool.not_eq_true, List.all_eq_true]
  push_neg
  constructor
  · rintro ⟨r, hr, hb⟩
    simp only [ne_eq, Bool.or_eq_true, beq_iff_eq, List.any_eq_true, not_or, not_exists] at hb
    obtain ⟨h0, hall⟩ := hb
    refine ⟨r, hr, h0, ?_⟩
    intro p hp
    have := hall p
    simp only [hp, true_and] at this
    simpa using this
  · rintro ⟨r, hr, h0, hall⟩
    refine ⟨r, hr, ?_⟩
    simp only [ne_eq, Bool.or_eq_true, beq_iff_eq, List.any_eq_true, not_or, not_exists]
    refine ⟨h0, ?_⟩
    intro p
    intro hp
    exact absurd (by simpa using hp.2) (hall p hp.1)

theorem pathCheck_eq_false_iff (df : List Row) (r : Row) :
    pathCheck df r = false ↔
      r.parent_id ≠ 0 ∧ ∃ p, findById df r.parent_id = some p ∧
        startswith r.path (p.path ++ "/") = false := by
  unfold pathCheck
  by_cases h0 : r.parent_id = 0
  · simp [h0]
  · rw [if_neg (by simpa using h0)]
    cases hfind : findById df r.parent_id with
    | none => simp [h0, hfind]
    | some p => simp [h0, hfind]

theorem levelCheck_eq_false_iff (df : List Row) (r : Row) :
    levelCheck df r = false ↔
      r.parent_id ≠ 0 ∧ ∃ p, findById df r.parent_id = some p ∧
        r.level ≠ p.level + 1 := by
  unfold levelCheck
  by_cases h0 : r.parent_id = 0
  · simp [h0]
  · rw [if_neg (by simpa using h0)]
    cases hfind : findById df r.parent_id with
    | none => simp [h0, hfind]
    | some p => simp [h0, hfind, beq_eq_false_iff_ne]

/-- The exact failure condition of `TreeDF.validate`. -/
theorem validate_false_iff (df : List Row) :
    validate df = false ↔ badParent df ∨ badPath df ∨ badLevel df := by
  unfold validate
  rw [Bool.and_eq_false_iff, Bool.and_eq_false_iff, parentsValid_eq_false_iff,
    List.all_eq_false, List.all_eq_false]
  constructor
  · rintro ((h | ⟨r, hr, hc⟩) | ⟨r, hr, hc⟩)
    · exact Or.inl h
    · exact Or.inr (Or.inl ⟨r, hr,
        (pathCheck_eq_false_iff df r).mp (Bool.eq_false_iff.mpr hc)⟩)
    · exact Or.inr (Or.inr ⟨r, hr,
        (levelCheck_eq_false_iff df r).mp (Bool.eq_false_iff.mpr hc)⟩)
  · rintro (h | ⟨r, hr, hc⟩ | ⟨r, hr, hc⟩)
    · exact Or.inl (Or.inl h)
    · exact Or.inl (Or.inr ⟨r, hr,
        Bool.eq_false_iff.mp ((pathCheck_eq_false_iff df r).mpr hc)⟩)
    · exact Or.inr ⟨r, hr,
        Bool.eq_false_iff.mp ((levelCheck_eq_false_iff df r).mpr hc)⟩

/-- Replace the `parent_id` of the row at index `k` (the corruption step of
the spec's test property). -/
def corrupt : List Row → Nat → Nat → List Row
  | [], _, _ => []
  | r :: rest, 0, pid => { r with parent_id := pid } :: rest
  | r :: rest, k + 1, pid => r :: corrupt rest k pid

theorem corrupt_map_id (df : List Row) (k pid : Nat) :
    (corrupt df k pid).map Row.id = df.map Row.id := by
  induction df generalizing k with
  | nil => rfl
  | cons r rest ih =>
    cases k with
    | zero => simp [corrupt]
    | succ k => simp [corrupt, ih]

theorem corrupt_mem_pid (df : List Row) (k pid : Nat) (hk : k < df.length) :
    ∃ r ∈ corrupt df k pid, r.parent_id = pid := by
  induction df generalizing k with
  | nil => simp at hk
  | cons r rest ih =>
    cases k with
    | zero => exact ⟨{ r with parent_id := pid }, by simp [corrupt], rfl⟩
    | succ k =>
      obtain ⟨r', hr', hpid'⟩ := ih k (by simpa using hk)
      exact ⟨r', by simp [corrupt, hr'], hpid'⟩

/-- C7: `validate` returns false exactly when some row's nonzero `parent_id`
matches no row's id, or some non-root row's path does not start with its
parent's path plus the separator, or some non-root row's level is not its
parent's level plus one; `validate` accepts the empty table; and replacing one
row's `parent_id` by a nonzero id carried by no row makes `validate` reject
the table. -/
theorem validate_characterization (df : List Row) (k pid : Nat)
    (hpid : pid ≠ 0) (hfresh : ∀ p ∈ df, p.id ≠ pid) (hk : k < df.length) :
    (validate df = false ↔ badParent df ∨ badPath df ∨ badLevel df) ∧
    validate [] = true ∧
    validate (corrupt df k pid) = false := by
  refine ⟨validate_false_iff df, by decide, ?_⟩
  rw [validate_false_iff]
  left
  obtain ⟨r, hr, hrpid⟩ := corrupt_mem_pid df k pid hk
  refine ⟨r, hr, by rw [hrpid]; exact hpid, ?_⟩
  intro p hp
  rw [hrpid]
  have hmem : p.id ∈ (corrupt df k pid).map Row.id := List.mem_map_of_mem Row.id hp
  rw [corrupt_map_id] at hmem
  obtain ⟨q, hq, hqe⟩ := List.mem_map.mp hmem
  rw [← hqe]
  exact hfresh q hq

/-- Witness for C7 at the table `[exRoot, exChild]`, index 1, fresh id 9. -/
theorem validate_characterization_witness :
    (9 ≠ 0 ∧ (∀ p ∈ [exRoot, exChild], p.id ≠ 9) ∧ 1 < [exRoot, exChild].length) ∧
    ((validate [exRoot, exChild] = false ↔
        badParent [exRoot, exChild] ∨ badPath [exRoot, exChild] ∨ badLevel [exRoot, exChild]) ∧
      validate [] = true ∧
      validate (corrupt [exRoot, exChild] 1 9) = false) :=
  ⟨⟨by decide, by decide, by decide⟩,
    validate_characterization [exRoot, exChild] 1 9 (by decide) (by decide) (by decide)⟩

/-- Row agreement on exactly the columns `df_to_tree` reads: `id`,
`parent_id`, `order`, `code` and `name`. -/
def Agree (r s : Row) : Prop :=
  r.id = s.id ∧ r.parent_id = s.parent_id ∧ r.order = s.order ∧
    r.code = s.code ∧ r.name = s.name

theorem find?_agree (p : Row → Bool) (hp : ∀ a b, Agree a b → p a = p b)
    {l₁ l₂ : List Row} (h : List.Forall₂ Agree l₁ l₂) :
    (l₁.find? p = none ∧ l₂.find? p = none) ∨
      ∃ a b, Agree a b ∧ l₁.find? p = some a ∧ l₂.find? p = some b := by
  induction h with
  | nil => exact Or.inl ⟨rfl, rfl⟩
  | @cons a b l₁' l₂' hab _ ih =>
    by_cases hpa : p a = true
    · exact Or.inr ⟨a, b, hab, List.find?_cons_of_pos _ hpa,
        List.find?_cons_of_pos _ (by rw [← hp a b hab]; exact hpa)⟩
    · have hpb : ¬ p b = true := by rw [← hp a b hab]; exact hpa
      rcases ih with ⟨h1, h2⟩ | ⟨x, y, hxy, h1, h2⟩
      · exact Or.inl ⟨by rw [List.find?_cons_of_neg _ hpa]; exact h1,
          by rw [List.find?_cons_of_neg _ hpb]; exact h2⟩
      · exact Or.inr ⟨x, y, hxy, by rw [List.find?_cons_of_neg _ hpa]; exact h1,
          by rw [List.find?_cons_of_neg _ hpb]; exact h2⟩

theorem filter_agree (p : Row → Bool) (hp : ∀ a b, Agree a b → p a = p b)
    {l₁ l₂ : List Row} (h : List.Forall₂ Agree l₁ l₂) :
    List.Forall₂ Agree (l₁.filter p) (l₂.filter p) := by
  induction h with
  | nil => simp
  | @cons a b l₁' l₂' hab _ ih =>
    by_cases hpa : p a = true
    · rw [List.filter_cons_of_pos hpa, List.filter_cons_of_pos (by rw [← hp a b hab]; exact hpa)]
      exact List.Forall₂.cons hab ih
    · rw [List.filter_cons_of_neg hpa, List.filter_cons_of_neg (by rw [← hp a b hab]; exact hpa)]
      exact ih

theorem insertRow_agree {r s : Row} (hrs : Agree r s) :
    ∀ {l₁ l₂ : List Row}, List.Forall₂ Agree l₁ l₂ →
      List.Forall₂ Agree (insertRow r l₁) (insertRow s l₂) := by
  intro l₁ l₂ h
  induction h with
  | nil => exact List.Forall₂.cons hrs List.Forall₂.nil
  | @cons a b l₁' l₂' hab hrest ih =>
    unfold insertRow
    by_cases hle : a.order ≤ r.order
    · rw [if_pos hle, if_pos (by rw [← hab.2.2.1, ← hrs.2.2.1]; exact hle)]
      exact List.Forall₂.cons hab ih
    · rw [if_neg hle, if_neg (by rw [← hab.2.2.1, ← hrs.2.2.1]; exact hle)]
      exact List.Forall₂.cons hrs (List.Forall₂.cons hab hrest)

theorem foldl_insert_agree {l₁ l₂ : List Row} (h : List.Forall₂ Agree l₁ l₂) :
    ∀ {acc₁ acc₂ : List Row}, List.Forall₂ Agree acc₁ acc₂ →
      List.Forall₂ Agree (l₁.foldl (fun acc r => insertRow r acc) acc₁)
        (l₂.foldl (fun acc r => insertRow r acc) acc₂) := by
  induction h with
  | nil => intro acc₁ acc₂ hacc; simpa
  | cons hab _ ih => intro acc₁ acc₂ hacc; exact ih (insertRow_agree hab hacc)

theorem sort_values_agree {l₁ l₂ : List Row} (h : List.Forall₂ Agree l₁ l₂) :
    List.Forall₂ Agree (sort_values l₁) (sort_values l₂) :=
  foldl_insert_agree h List.Forall₂.nil

theorem map_id_agree {l₁ l₂ : List Row} (h : List.Forall₂ Agree l₁ l₂) :
    l₁.map Row.id = l₂.map Row.id := by
  induction h with
  | nil => rfl
  | cons hab _ ih => simp [hab.1, ih]

theorem mapOpt_congr {f g : Nat → Option OutTree} :
    ∀ {ids : List Nat}, (∀ i ∈ ids, f i = g i) → mapOpt f ids = mapOpt g ids := by
  intro ids
  induction ids with
  | nil => intro _; rfl
  | cons i rest ih =>
    intro h
    unfold mapOpt
    rw [h i (by simp), ih (fun j hj => h j (by simp [hj]))]

theorem build_node_agree {df₁ df₂ : List Row} (h : List.Forall₂ Agree df₁ df₂) :
    ∀ fuel i, build_node df₁ fuel i = build_node df₂ fuel i := by
  intro fuel
  induction fuel with
  | zero => intro i; rfl
  | succ fuel ih =>
    intro i
    have hfind := find?_agree (fun r => r.id == i)
      (fun a b hab => by show (a.id == i) = (b.id == i); rw [hab.1]) h
    unfold build_node
    unfold findById
    rcases hfind with ⟨h1, h2⟩ | ⟨a, b, hab, h1, h2⟩
    · rw [h1, h2]
    · rw [h1, h2]
      have hfil := filter_agree (fun r => r.parent_id == i)
        (fun a b hab => by show (a.parent_id == i) = (b.parent_id == i); rw [hab.2.1]) h
      have hids := map_id_agree (sort_values_agree hfil)
      rw [hids, mapOpt_congr (fun j _ => ih j)]
      cases mapOpt (build_node df₂ fuel)
          (List.map Row.id (sort_values (List.filter (fun r => r.parent_id == i) df₂))) with
      | none => rfl
      | some kids =>
        show some (OutTree.node a.code a.name a.id kids)
          = some (OutTree.node b.code b.name b.id kids)
        rw [hab.1, hab.2.2.2.1, hab.2.2.2.2]

/-- C10: reconstruction reads only the columns `id`, `parent_id`, `order`,
`code` and `name`: two tables agreeing row-for-row on those five columns
(and arbitrary elsewhere) give the same `df_to_tree` result. -/
theorem df_to_tree_reads_five_columns (df₁ df₂ : List Row)
    (h : List.Forall₂ Agree df₁ df₂) :
    df_to_tree df₁ = df_to_tree df₂ := by
  unfold df_to_tree
  have hfind := find?_agree (fun r => r.parent_id == 0)
    (fun a b hab => by show (a.parent_id == 0) = (b.parent_id == 0); rw [hab.2.1]) h
  rcases hfind with ⟨h1, h2⟩ | ⟨a, b, hab, h1, h2⟩
  · rw [h1, h2]
  · rw [h1, h2, h.length_eq]
    show build_node df₁ (df₂.length + 1) a.id = build_node df₂ (df₂.length + 1) b.id
    rw [hab.1]
    exact build_node_agree h _ _

/-- Rows agreeing with each other on the five reconstruction columns while
differing in `parent_code`, `level`, `path`, `order`-unrelated flags and
timestamps. -/
def wRowA : Row :=
  { id := 1, code := "A", name := "root", parent_id := 0, parent_code := "",
    level := 1, path := "A", order := 1, is_leaf := true, is_active := true,
    created_at := 0, updated_at := 0 }

def wRowB : Row :=
  { id := 1, code := "A", name := "root", parent_id := 0, parent_code := "zzz",
    level := 42, path := "completely/different", order := 1, is_leaf := false,
    is_active := false, created_at := 7, updated_at := 8 }

/-- Witness for C10 at the one-row tables `[wRowA]` and `[wRowB]`. -/
theorem df_to_tree_reads_five_columns_witness :
    List.Forall₂ Agree [wRowA] [wRowB] ∧ df_to_tree [wRowA] = df_to_tree [wRowB] :=
  ⟨List.Forall₂.cons ⟨rfl, rfl, rfl, rfl, rfl⟩ List.Forall₂.nil,
   df_to_tree_reads_five_columns [wRowA] [wRowB]
     (List.Forall₂.cons ⟨rfl, rfl, rfl, rfl, rfl⟩ List.Forall₂.nil)⟩

theorem visitPath_codes_nodup (sep : String) (segs : List String) :
    ∀ (rows : List PRow) (prev : List String),
      (rows.map PRow.code).Nodup → ((visitPath sep rows prev segs).map PRow.code).Nodup := by
  induction segs with
  | nil => intro rows prev h; exact h
  | cons c rest ih =>
    intro rows prev h
    unfold visitPath
    cases hc : findByCode rows c with
    | some p => exact ih rows (prev ++ [c]) h
    | none =>
      apply ih
      rw [List.map_append]
      refine List.Nodup.append h (List.nodup_singleton _) ?_
      intro x hx hx'
      have hxc : x = c := by simpa using hx'
      subst hxc
      obtain ⟨q, hq, hqc⟩ := List.mem_map.mp hx
      have := List.find?_eq_none.mp hc q hq
      exact this (by simpa using hqc)

theorem build_from_paths_codes_nodup (sep : Char) (raw : List String) :
    ((build_from_paths sep raw).map PRow.code).Nodup := by
  unfold build_from_paths
  suffices h : ∀ (rows : List PRow), (rows.map PRow.code).Nodup →
      ((raw.foldl (fun rows s => visitPath (String.mk [sep]) rows [] (normalize_path sep s))
        rows).map PRow.code).Nodup by
    exact h [] (by simp)
  induction raw with
  | nil => intro rows h; exact h
  | cons s rest ih =>
    intro rows h
    exact ih _ (visitPath_codes_nodup _ _ _ _ h)

/-- C9: the path-list builder keys node identity by code alone: no code ever
receives two rows (first conjunct), and on the colliding input
`["A/B", "C/B"]` it creates exactly one node for `B`, attached to `A` (the
parent of the first occurrence, id 1), keeping the first occurrence's level 2
and path `"A/B"`, and returns normally. -/
theorem path_builder_silent_merge :
    (∀ (sep : Char) (raw : List String), ((build_from_paths sep raw).map PRow.code).Nodup) ∧
    build_from_paths '/' ["A/B", "C/B"] =
      [{ id := 1, code := "A", parent_id := 0, level := 1, path := "A" },
       { id := 2, code := "B", parent_id := 1, level := 2, path := "A/B" },
       { id := 3, code := "C", parent_id := 0, level := 1, path := "C" }] :=
  ⟨build_from_paths_codes_nodup, by decide⟩

theorem idsFrom_length (s n : Nat) : (idsFrom s n).length = n := by
  induction n generalizing s with
  | zero => rfl
  | succ n ih => simp [idsFrom, ih]

theorem idsFrom_append (s m n : Nat) :
    idsFrom s (m + n) = idsFrom s m ++ idsFrom (s + m) n := by
  induction m generalizing s with
  | zero => simp [idsFrom]
  | succ m ih =>
    rw [show m + 1 + n = (m + n) + 1 from by omega]
    show s :: idsFrom (s + 1) (m + n) = (s :: idsFrom (s + 1) m) ++ idsFrom (s + (m + 1)) n
    rw [ih (s + 1)]
    simp only [List.cons_append, List.append_assoc]
    congr 3
    omega

theorem idsFrom_get? (s n k : Nat) (hk : k < n) :
    (idsFrom s n).get? k = some (s + k) := by
  induction n generalizing s k with
  | zero => omega
  | succ n ih =>
    cases k with
    | zero => rfl
    | succ k =>
      show (idsFrom (s + 1) n).get? k = some (s + (k + 1))
      rw [ih (s + 1) k (by omega)]
      congr 1
      omega

theorem size_pos (t : DeptTree) : 1 ≤ DeptTree.size t := by
  cases t with
  | node d nm cs =>
    rw [DeptTree.size]
    omega

mutual
theorem seg_length (t : DeptTree) (pid : Nat) (pcode : String) (lvl ord base : Nat) :
    (seg t pid pcode lvl ord base).length = DeptTree.size t := by
  match t with
  | .node d nm cs =>
    have h := segs_length cs base d (lvl + 1) 1 (base + 1)
    rw [seg, DeptTree.size]
    simp [h]
    omega
theorem segs_length (ts : List DeptTree) (pid : Nat) (pcode : String) (lvl ord base : Nat) :
    (segs ts pid pcode lvl ord base).length = sizeL ts := by
  match ts with
  | [] => rfl
  | c :: rest =>
    have h1 := seg_length c pid pcode lvl ord base
    have h2 := segs_length rest pid pcode lvl (ord + 1) (base + DeptTree.size c)
    rw [segs, sizeL]
    simp [h1, h2]
end

mutual
theorem tree_to_df_eq (df : List Row) (t : DeptTree) (pid : Option Nat)
    (pcode : String) (lvl ord : Nat) :
    tree_to_df df t pid pcode lvl ord
      = df ++ seg t (pid.getD 0) pcode lvl ord (df.length + 1) := by
  match t with
  | .node d nm cs =>
    have h := children_fold_eq
      (df ++ [mkRow (df.length + 1) d nm (pid.getD 0) pcode lvl ord cs.isEmpty])
      cs (df.length + 1) d (lvl + 1) 1
    rw [tree_to_df, seg]
    simp only [mkRow] at h ⊢
    rw [h]
    simp [List.length_append]
theorem children_fold_eq (df : List Row) (ts : List DeptTree) (pid : Nat)
    (pcode : String) (lvl ord : Nat) :
    children_fold df ts pid pcode lvl ord
      = df ++ segs ts pid pcode lvl ord (df.length + 1) := by
  match ts with
  | [] => simp [children_fold, segs]
  | c :: rest =>
    have h1 := tree_to_df_eq df c (some pid) pcode lvl ord
    have h2 := children_fold_eq (df ++ seg c pid pcode lvl ord (df.length + 1))
      rest pid pcode lvl (ord + 1)
    rw [children_fold, segs]
    rw [h1]
    simp only [Option.getD] at h1 ⊢
    rw [h2]
    simp [List.length_append, seg_length, List.append_assoc]
    congr 1
    omega
end

mutual
theorem seg_ids (t : DeptTree) (pid : Nat) (pcode : String) (lvl ord base : Nat) :
    (seg t pid pcode lvl ord base).map Row.id = idsFrom base (DeptTree.size t) := by
  match t with
  | .node d nm cs =>
    have h := segs_ids cs base d (lvl + 1) 1 (base + 1)
    rw [seg, DeptTree.size, show 1 + sizeL cs = sizeL cs + 1 from by omega]
    simp [mkRow, h, idsFrom]
theorem segs_ids (ts : List DeptTree) (pid : Nat) (pcode : String) (lvl ord base : Nat) :
    (segs ts pid pcode lvl ord base).map Row.id = idsFrom base (sizeL ts) := by
  match ts with
  | [] => rfl
  | c :: rest =>
    have h1 := seg_ids c pid pcode lvl ord base
    have h2 := segs_ids rest pid pcode lvl (ord + 1) (base + DeptTree.size c)
    rw [segs, sizeL, idsFrom_append]
    simp [h1, h2]
end

mutual
theorem seg_labels (t : DeptTree) (pid : Nat) (pcode : String) (lvl ord base : Nat) :
    (seg t pid pcode lvl ord base).map (fun r => (r.code, r.name)) = DeptTree.labels t := by
  match t with
  | .node d nm cs =>
    have h := segs_labels cs base d (lvl + 1) 1 (base + 1)
    rw [seg, DeptTree.labels]
    simp [mkRow, h]
theorem segs_labels (ts : List DeptTree) (pid : Nat) (pcode : String) (lvl ord base : Nat) :
    (segs ts pid pcode lvl ord base).map (fun r => (r.code, r.name)) = labelsL ts := by
  match ts with
  | [] => rfl
  | c :: rest =>
    have h1 := seg_labels c pid pcode lvl ord base
    have h2 := segs_labels rest pid pcode lvl (ord + 1) (base + DeptTree.size c)
    rw [segs, labelsL]
    simp [h1, h2]
end

/-- C8: starting from the empty table, `tree_to_df` emits exactly one row per
input node in pre-order (its `(code, name)` column sequence equals the
pre-order label listing of the input tree, in which every node appears
immediately before its subtree and each sibling subtree is finished before
the next begins), and the k-th emitted row (1-based) carries id k. -/
theorem tree_to_df_preorder_ids (t : DeptTree) :
    ((tree_to_df [] t none "" 1 1).map fun r => (r.code, r.name)) = DeptTree.labels t ∧
    (tree_to_df [] t none "" 1 1).map Row.id = idsFrom 1 (DeptTree.size t) ∧
    ∀ k, k < (tree_to_df [] t none "" 1 1).length →
      ((tree_to_df [] t none "" 1 1).get? k).map Row.id = some (k + 1) := by
  have he : tree_to_df [] t none "" 1 1 = seg t 0 "" 1 1 1 := by
    simpa using tree_to_df_eq [] t none "" 1 1
  refine ⟨by rw [he]; exact seg_labels t 0 "" 1 1 1,
    by rw [he]; exact seg_ids t 0 "" 1 1 1, ?_⟩
  intro k hk
  rw [he] at hk ⊢
  rw [seg_length] at hk
  have h2 : ((seg t 0 "" 1 1 1).map Row.id).get? k = some (1 + k) := by
    rw [seg_ids]
    exact idsFrom_get? 1 _ k hk
  rw [List.get?_map] at h2
  rw [show k + 1 = 1 + k from by omega]
  exact h2

theorem headRow_id (t : DeptTree) (pid : Nat) (pcode : String) (lvl ord base : Nat) :
    (headRow t pid pcode lvl ord base).id = base := by
  cases t with
  | node d nm cs => rfl

theorem headRow_order (t : DeptTree) (pid : Nat) (pcode : String) (lvl ord base : Nat) :
    (headRow t pid pcode lvl ord base).order = ord := by
  cases t with
  | node d nm cs => rfl

theorem headRow_code (t : DeptTree) (pid : Nat) (pcode : String) (lvl ord base : Nat) :
    (headRow t pid pcode lvl ord base).code = t.dept := by
  cases t with
  | node d nm cs => rfl

theorem headRow_name (t : DeptTree) (pid : Nat) (pcode : String) (lvl ord base : Nat) :
    (headRow t pid pcode lvl ord base).name = t.name := by
  cases t with
  | node d nm cs => rfl

mutual
theorem seg_parent_bound (t : DeptTree) (pid : Nat) (pcode : String) (lvl ord base : Nat) :
    ∀ r ∈ seg t pid pcode lvl ord base,
      r.parent_id = pid ∨ (base ≤ r.parent_id ∧ r.parent_id < base + DeptTree.size t) := by
  match t with
  | .node d nm cs =>
    intro r hr
    rw [seg] at hr
    rw [DeptTree.size]
    rcases List.mem_cons.mp hr with h | h
    · subst h
      left
      rfl
    · rcases segs_parent_bound cs base d (lvl + 1) 1 (base + 1) r h with h1 | ⟨h1, h2⟩
      · right
        constructor <;> omega
      · right
        constructor <;> omega
theorem segs_parent_bound (ts : List DeptTree) (pid : Nat) (pcode : String) (lvl ord base : Nat) :
    ∀ r ∈ segs ts pid pcode lvl ord base,
      r.parent_id = pid ∨ (base ≤ r.parent_id ∧ r.parent_id < base + sizeL ts) := by
  match ts with
  | [] => intro r hr; rw [segs] at hr; exact absurd hr (List.not_mem_nil r)
  | c :: rest =>
    intro r hr
    rw [segs] at hr
    rw [sizeL]
    rcases List.mem_append.mp hr with h | h
    · rcases seg_parent_bound c pid pcode lvl ord base r h with h1 | ⟨h1, h2⟩
      · left; exact h1
      · right; constructor <;> omega
    · rcases segs_parent_bound rest pid pcode lvl (ord + 1) (base + DeptTree.size c) r h
        with h1 | ⟨h1, h2⟩
      · left; exact h1
      · right; constructor <;> omega
end

mutual
theorem seg_filter_lt (t : DeptTree) (pid : Nat) (pcode : String) (lvl ord base i : Nat)
    (hi : i < base) :
    (seg t pid pcode lvl ord base).filter (fun r => r.parent_id == i)
      = if i = pid then [headRow t pid pcode lvl ord base] else [] := by
  match t with
  | .node d nm cs =>
    rw [seg, List.filter_cons,
      segs_filter_lt cs base d (lvl + 1) 1 (base + 1) i (by omega),
      if_neg (show ¬ i = base from by omega)]
    by_cases hip : i = pid
    · subst hip
      rw [if_pos rfl]
      simp [mkRow, headRow]
    · rw [if_neg hip]
      simp only [mkRow]
      rw [if_neg (by simp; omega)]
theorem segs_filter_lt (ts : List DeptTree) (pid : Nat) (pcode : String) (lvl ord base i : Nat)
    (hi : i < base) :
    (segs ts pid pcode lvl ord base).filter (fun r => r.parent_id == i)
      = if i = pid then rootRows ts pid pcode lvl ord base else [] := by
  match ts with
  | [] => simp [segs, rootRows]
  | c :: rest =>
    rw [segs, List.filter_append,
      seg_filter_lt c pid pcode lvl ord base i hi,
      segs_filter_lt rest pid pcode lvl (ord + 1) (base + DeptTree.size c) i
        (by have := size_pos c; omega)]
    by_cases hip : i = pid
    · rw [if_pos hip, if_pos hip, if_pos hip, rootRows]
      rfl
    · rw [if_neg hip, if_neg hip, if_neg hip]
      rfl
end

theorem seg_filter_self (d nm : String) (cs : List DeptTree) (pid : Nat) (pcode : String)
    (lvl ord base : Nat) (hpid : pid < base) :
    (seg (.node d nm cs) pid pcode lvl ord base).filter (fun r => r.parent_id == base)
      = rootRows cs base d (lvl + 1) 1 (base + 1) := by
  rw [seg, List.filter_cons,
    segs_filter_lt cs base d (lvl + 1) 1 (base + 1) base (by omega),
    if_pos rfl]
  simp only [mkRow]
  rw [if_neg (by simp; omega)]

theorem rootRows_ids (ts : List DeptTree) (pid : Nat) (pcode : String) :
    ∀ (lvl ord base : Nat),
      (rootRows ts pid pcode lvl ord base).map Row.id = childBases ts base := by
  induction ts with
  | nil => intro lvl ord base; rfl
  | cons c rest ih =>
    intro lvl ord base
    rw [rootRows, childBases]
    simp [headRow_id, ih]

theorem rootRows_order_ge (ts : List DeptTree) (pid : Nat) (pcode : String) :
    ∀ (lvl ord base : Nat), ∀ r ∈ rootRows ts pid pcode lvl ord base, ord ≤ r.order := by
  induction ts with
  | nil => intro lvl ord base r hr; rw [rootRows] at hr; exact absurd hr (List.not_mem_nil r)
  | cons c rest ih =>
    intro lvl ord base r hr
    rw [rootRows] at hr
    rcases List.mem_cons.mp hr with h | h
    · subst h; rw [headRow_order]
    · have := ih lvl (ord + 1) (base + DeptTree.size c) r h
      omega

theorem rootRows_pairwise (ts : List DeptTree) (pid : Nat) (pcode : String) :
    ∀ (lvl ord base : Nat),
      List.Pairwise (fun a b => a.order ≤ b.order) (rootRows ts pid pcode lvl ord base) := by
  induction ts with
  | nil => intro lvl ord base; rw [rootRows]; exact List.Pairwise.nil
  | cons c rest ih =>
    intro lvl ord base
    rw [rootRows]
    refine List.Pairwise.cons ?_ (ih lvl (ord + 1) (base + DeptTree.size c))
    intro r hr
    have := rootRows_order_ge rest pid pcode lvl (ord + 1) (base + DeptTree.size c) r hr
    rw [headRow_order]
    omega

theorem insertRow_append_of_le (r : Row) (acc : List Row)
    (h : ∀ x ∈ acc, x.order ≤ r.order) : insertRow r acc = acc ++ [r] := by
  induction acc with
  | nil => rfl
  | cons x xs ih =>
    rw [insertRow, if_pos (h x (by simp)), ih (fun y hy => h y (by simp [hy]))]
    rfl

theorem foldl_insert_of_sorted (l : List Row) :
    ∀ acc, List.Pairwise (fun a b => a.order ≤ b.order) l →
      (∀ x ∈ acc, ∀ y ∈ l, x.order ≤ y.order) →
      l.foldl (fun acc r => insertRow r acc) acc = acc ++ l := by
  induction l with
  | nil => intro acc _ _; simp
  | cons r rest ih =>
    intro acc hp hal
    rw [List.foldl_cons, insertRow_append_of_le r acc (fun x hx => hal x hx r (by simp)),
      ih (acc ++ [r]) (List.pairwise_cons.mp hp).2 ?_]
    · simp
    · intro x hx y hy
      rcases List.mem_append.mp hx with h | h
      · exact hal x h y (by simp [hy])
      · have hxr : x = r := by simpa using h
        subst hxr
        exact (List.pairwise_cons.mp hp).1 y hy

theorem sort_values_of_pairwise (l : List Row)
    (h : List.Pairwise (fun a b => a.order ≤ b.order) l) : sort_values l = l := by
  rw [sort_values, foldl_insert_of_sorted l [] h (by simp)]
  rfl

theorem find?_of_seq_ids (l : List Row) :
    ∀ (s : Nat), l.map Row.id = idsFrom s l.length →
      ∀ k, k < l.length → l.find? (fun r => r.id == s + k) = l.get? k := by
  induction l with
  | nil => intro s _ k hk; simp at hk
  | cons r rest ih =>
    intro s h k hk
    have hh : r.id = s ∧ List.map Row.id rest = idsFrom (s + 1) rest.length := by
      rw [show (r :: rest).length = rest.length + 1 from rfl, idsFrom] at h
      simpa using h
    obtain ⟨hid, hrest⟩ := hh
    cases k with
    | zero =>
      rw [List.find?_cons_of_pos _ (by simp [hid])]
      rfl
    | succ k =>
      rw [List.find?_cons_of_neg _ (by simp [hid]),
        show s + (k + 1) = s + 1 + k from by omega]
      exact ih (s + 1) hrest k (by simpa using hk)

mutual
theorem strip_toOut (t : DeptTree) (base : Nat) : OutTree.strip (toOut t base) = t := by
  match t with
  | .node d nm cs =>
    have h := stripL_toOutL cs (base + 1)
    rw [toOut, OutTree.strip, h]
theorem stripL_toOutL (ts : List DeptTree) (base : Nat) : stripL (toOutL ts base) = ts := by
  match ts with
  | [] => rfl
  | c :: rest =>
    have h1 := strip_toOut c base
    have h2 := stripL_toOutL rest (base + DeptTree.size c)
    rw [toOutL, stripL, h1, h2]
end

theorem headRow_parent_id (t : DeptTree) (pid : Nat) (pcode : String) (lvl ord base : Nat) :
    (headRow t pid pcode lvl ord base).parent_id = pid := by
  cases t with
  | node d nm cs => rfl

mutual
theorem build_node_seg (t : DeptTree) (pid : Nat) (pcode : String) (lvl ord base fuel : Nat)
    (pre post F : List Row)
    (hF : F = pre ++ seg t pid pcode lvl ord base ++ post)
    (hbase : base = pre.length + 1)
    (hids : F.map Row.id = idsFrom 1 F.length)
    (hout : ∀ r, r ∈ pre ∨ r ∈ post → r.parent_id < base ∨ base + DeptTree.size t ≤ r.parent_id)
    (hpid : pid < base)
    (hfuel : DeptTree.size t ≤ fuel) :
    build_node F fuel base = some (toOut t base) := by
  match t with
  | .node d nm cs =>
    obtain ⟨f, rfl⟩ : ∃ f, fuel = f + 1 := by
      have := size_pos (DeptTree.node d nm cs)
      cases fuel with
      | zero => omega
      | succ f => exact ⟨f, rfl⟩
    have hsz : DeptTree.size (DeptTree.node d nm cs) = 1 + sizeL cs := by rw [DeptTree.size]
    have hksmall : base - 1 < F.length := by
      rw [hF]
      simp only [List.length_append, seg_length]
      have := size_pos (DeptTree.node d nm cs)
      omega
    have hfid : findById F base = some (headRow (.node d nm cs) pid pcode lvl ord base) := by
      rw [findById]
      have hfind := find?_of_seq_ids F 1 hids (base - 1) hksmall
      rw [show 1 + (base - 1) = base from by omega] at hfind
      rw [hfind, hF, show base - 1 = pre.length from by omega, List.append_assoc,
        List.get?_append_right (Nat.le_refl pre.length), Nat.sub_self]
      rfl
    have hfilter : F.filter (fun r => r.parent_id == base)
        = rootRows cs base d (lvl + 1) 1 (base + 1) := by
      have hpre : pre.filter (fun r => r.parent_id == base) = [] := by
        rw [List.filter_eq_nil]
        intro r hr
        have := hout r (Or.inl hr)
        have := size_pos (DeptTree.node d nm cs)
        simp
        omega
      have hpost : post.filter (fun r => r.parent_id == base) = [] := by
        rw [List.filter_eq_nil]
        intro r hr
        have := hout r (Or.inr hr)
        have := size_pos (DeptTree.node d nm cs)
        simp
        omega
      rw [hF, List.filter_append, List.filter_append,
        seg_filter_self d nm cs pid pcode lvl ord base hpid, hpre, hpost]
      simp
    have hmain : mapOpt (build_node F f) (childBases cs (base + 1))
        = some (toOutL cs (base + 1)) := by
      apply build_nodes_segs cs base d (lvl + 1) 1 (base + 1) f
        (pre ++ [headRow (.node d nm cs) pid pcode lvl ord base]) post F
      · rw [hF]
        simp [seg, headRow, List.append_assoc]
      · simp only [List.length_append, List.length_cons, List.length_nil]
        omega
      · exact hids
      · intro r hr
        rcases hr with hr | hr
        · rcases List.mem_append.mp hr with h | h
          · rcases hout r (Or.inl h) with h1 | h1
            · left; omega
            · right; rw [hsz] at h1; omega
          · have hrh : r = headRow (.node d nm cs) pid pcode lvl ord base := by simpa using h
            subst hrh
            left
            rw [headRow_parent_id]
            omega
        · rcases hout r (Or.inr hr) with h1 | h1
          · left; omega
          · right; rw [hsz] at h1; omega
      · omega
      · rw [hsz] at hfuel; omega
    have hkids : mapOpt (build_node F f)
        ((sort_values (F.filter (fun r => r.parent_id == base))).map Row.id)
        = some (toOutL cs (base + 1)) := by
      rw [hfilter, sort_values_of_pairwise _ (rootRows_pairwise cs base d (lvl + 1) 1 (base + 1)),
        rootRows_ids]
      exact hmain
    rw [build_node]
    simp only [hfid, hkids]
    rw [headRow_code, headRow_name, headRow_id, toOut]
    simp [DeptTree.dept, DeptTree.name]
theorem build_nodes_segs (ts : List DeptTree) (pid : Nat) (pcode : String)
    (lvl ord base fuel : Nat) (pre post F : List Row)
    (hF : F = pre ++ segs ts pid pcode lvl ord base ++ post)
    (hbase : base = pre.length + 1)
    (hids : F.map Row.id = idsFrom 1 F.length)
    (hout : ∀ r, r ∈ pre ∨ r ∈ post → r.parent_id < base ∨ base + sizeL ts ≤ r.parent_id)
    (hpid : pid < base)
    (hfuel : sizeL ts ≤ fuel) :
    mapOpt (build_node F fuel) (childBases ts base) = some (toOutL ts base) := by
  match ts with
  | [] => rw [childBases, toOutL]; rfl
  | c :: rest =>
    have hszl : sizeL (c :: rest) = DeptTree.size c + sizeL rest := by rw [sizeL]
    have h1 : build_node F fuel base = some (toOut c base) := by
      apply build_node_seg c pid pcode lvl ord base fuel pre
        (segs rest pid pcode lvl (ord + 1) (base + DeptTree.size c) ++ post) F
      · rw [hF, segs]
        simp [List.append_assoc]
      · exact hbase
      · exact hids
      · intro r hr
        rcases hr with hr | hr
        · rcases hout r (Or.inl hr) with h | h
          · left; exact h
          · right; rw [hszl] at h; omega
        · rcases List.mem_append.mp hr with h | h
          · rcases segs_parent_bound rest pid pcode lvl (ord + 1) (base + DeptTree.size c) r h
              with hb | ⟨hb1, hb2⟩
            · left; omega
            · right; omega
          · rcases hout r (Or.inr h) with hb | hb
            · left; exact hb
            · right; rw [hszl] at hb; omega
      · exact hpid
      · rw [hszl] at hfuel; omega
    have h2 : mapOpt (build_node F fuel) (childBases rest (base + DeptTree.size c))
        = some (toOutL rest (base + DeptTree.size c)) := by
      apply build_nodes_segs rest pid pcode lvl (ord + 1) (base + DeptTree.size c) fuel
        (pre ++ seg c pid pcode lvl ord base) post F
      · rw [hF, segs]
        simp [List.append_assoc]
      · simp only [List.length_append, seg_length]
        omega
      · exact hids
      · intro r hr
        rcases hr with hr | hr
        · rcases List.mem_append.mp hr with h | h
          · rcases hout r (Or.inl h) with hb | hb
            · left
              have := size_pos c
              omega
            · right; rw [hszl] at hb; omega
          · rcases seg_parent_bound c pid pcode lvl ord base r h with hb | ⟨hb1, hb2⟩
            · left; omega
            · left; omega
        · rcases hout r (Or.inr hr) with hb | hb
          · left
            have := size_pos c
            omega
          · right; rw [hszl] at hb; omega
      · have := size_pos c
        omega
      · rw [hszl] at hfuel; omega
    rw [childBases, toOutL, mapOpt, h1, h2]
end

/-- C3: reconstructing the table built from a nested tree with unique codes
yields, after forgetting the added `id` fields, a tree structurally equal to
the input: same code, same name and same ordered children at every level. -/
theorem df_to_tree_round_trip (t : DeptTree)
    (h : ((DeptTree.labels t).map Prod.fst).Nodup) :
    (df_to_tree (tree_to_df [] t none "" 1 1)).map OutTree.strip = some t := by
  have he : tree_to_df [] t none "" 1 1 = seg t 0 "" 1 1 1 := by
    simpa using tree_to_df_eq [] t none "" 1 1
  rw [he]
  have hids : (seg t 0 "" 1 1 1).map Row.id = idsFrom 1 (seg t 0 "" 1 1 1).length := by
    rw [seg_ids, seg_length]
  have hb := build_node_seg t 0 "" 1 1 1 ((seg t 0 "" 1 1 1).length + 1) [] []
    (seg t 0 "" 1 1 1) (by simp) (by simp) hids
    (by intro r hr; rcases hr with hr | hr <;> simp at hr) (by omega)
    (by rw [seg_length]; omega)
  cases t with
  | node d nm cs =>
    rw [df_to_tree]
    have hroot : (seg (DeptTree.node d nm cs) 0 "" 1 1 1).find? (fun r => r.parent_id == 0)
        = some (headRow (DeptTree.node d nm cs) 0 "" 1 1 1) := by
      rw [seg, List.find?_cons_of_pos _ (by simp [mkRow])]
      rfl
    rw [hroot]
    show (build_node (seg (DeptTree.node d nm cs) 0 "" 1 1 1)
        ((seg (DeptTree.node d nm cs) 0 "" 1 1 1).length + 1)
        (headRow (DeptTree.node d nm cs) 0 "" 1 1 1).id).map OutTree.strip
      = some (DeptTree.node d nm cs)
    rw [headRow_id, hb]
    simp [strip_toOut]

/-- Witness for C3 at the sample tree `A→{B→{D,E}, C}`, whose codes are
unique across branches. -/
theorem df_to_tree_round_trip_witness :
    ((DeptTree.labels sampleTree).map Prod.fst).Nodup ∧
    (df_to_tree (tree_to_df [] sampleTree none "" 1 1)).map OutTree.strip = some sampleTree :=
  ⟨by decide, df_to_tree_round_trip sampleTree (by decide)⟩
